import Mathlib

/-!
# Verification of `myref/bib.py`

A shallow embedding of the reference-manager `myref/bib.py` (DOI extraction,
sorted bibliography index, file-association bookkeeping, rename logic, the
CLI `add` control flow and the fetch cache), with theorems settling the
specification claims about it.

Strings are modelled as Lean `String`s; operations that Python performs on
`str` values are implemented structurally on the underlying `List Char`
(`String.data`) so that every definition evaluates by kernel reduction.
`str.lower` and the regex `\d` are modelled on ASCII, which covers every
string the program manipulates.
-/

/-! ## Character and string helpers -/

/-- ASCII decimal digit (model of the regex `\d` on the program's input). -/
def isDigitChar (c : Char) : Bool :=
  48 ≤ c.toNat && c.toNat ≤ 57

/-- ASCII model of Python's `str.lower`. -/
def lowerStr (s : String) : String :=
  String.mk (s.data.map Char.toLower)

/-- Python's `str.split(sep)` for a single-character separator: splits at every
occurrence and keeps empty pieces (`''.split(sep) == ['']`). -/
def splitOnChar (sep : Char) : List Char → List (List Char)
  | [] => [[]]
  | c :: cs =>
    if c = sep then [] :: splitOnChar sep cs
    else
      match splitOnChar sep cs with
      | [] => [[c]]
      | t :: ts => (c :: t) :: ts

/-- ASCII whitespace (model of the character set stripped by `str.strip()`). -/
def isSpaceChar (c : Char) : Bool :=
  c = ' ' || c = '\t' || c = '\n' || c = '\r' || c = '\x0b' || c = '\x0c'

/-- Strip characters satisfying `p` from both ends of a character list
(Python's `str.strip(chars)`). -/
def stripBoth (p : Char → Bool) (l : List Char) : List Char :=
  ((l.dropWhile p).reverse.dropWhile p).reverse

/-- `';'.join(parts)` (and `str` concatenation of the separator), built
structurally on the character lists. -/
def strIntercalate (sep : String) (parts : List String) : String :=
  String.mk (List.intercalate sep.data (parts.map String.data))

/-- Python `s.startswith('/')`. -/
def startsWithSlash (s : String) : Bool :=
  match s.data with
  | [] => false
  | c :: _ => c = '/'

/-- Python `s.endswith('/')`. -/
def endsWithSlash (s : String) : Bool :=
  match s.data.getLast? with
  | some c => c = '/'
  | none => false

/-- Python string comparison `a < b`: lexicographic by code point. -/
def strLtB : List Char → List Char → Bool
  | [], [] => false
  | [], _ :: _ => true
  | _ :: _, [] => false
  | a :: as, b :: bs =>
    if a.toNat < b.toNat then true
    else if b.toNat < a.toNat then false
    else strLtB as bs

/-- Python string comparison `a <= b`. -/
def strLeB (a b : List Char) : Bool := !(strLtB b a)

/-! ## The DOI regex of `parse_doi` (bib.py lines 204-228)

The source builds the pattern

  `'[' + '|'.join(['doi:', 'doi: ', 'doi ', 'dx\.doi\.org/', 'doi/']) + ']'`
  `+ '(' + '10\.\d\d\d\d/.*?' (+ '[ \d]*' when space_digit) + ')' + '[, \n]'`

i.e. the "prefix" is a single *character class* holding the characters of all
the alternatives, not an alternation.  The functions below implement Python's
`re.findall` semantics for exactly this pattern: leftmost scan,
non-overlapping matches, lazy `.*?` (shortest first), greedy `[ \d]*` with
backtracking, `.` not matching a newline. -/

/-- The character class `[doi:|doi: |doi |dx\.doi\.org/|doi/]`: joining the
alternatives with `|` inside `[...]` yields the set of their individual
characters — {d, o, i, :, |, space, x, ., /, r, g}, the `r` and `g`
contributed by the `org` of `dx\.doi\.org/` (duplicates collapse, `\.` is
a literal dot). -/
def prefixClassChar (c : Char) : Bool :=
  c = 'd' || c = 'o' || c = 'i' || c = ':' || c = '|' || c = ' ' || c = 'x' || c = '.' ||
    c = '/' || c = 'r' || c = 'g'

/-- The terminator class `[, \n]`. -/
def stopChar (c : Char) : Bool :=
  c = ',' || c = ' ' || c = '\n'

/-- The class `[ \d]` used by the space-digit fix. -/
def spaceDigitChar (c : Char) : Bool :=
  c = ' ' || isDigitChar c

/-- `10\.\d\d\d\d/` : literal `10.`, four digits, `/`.
Returns the consumed characters and the remaining input. -/
def matchDoiHead : List Char → Option (List Char × List Char)
  | '1' :: '0' :: '.' :: a :: b :: c :: d :: '/' :: rest =>
    if isDigitChar a && isDigitChar b && isDigitChar c && isDigitChar d then
      some (['1', '0', '.', a, b, c, d, '/'], rest)
    else none
  | _ => none

/-- Largest index `j` at or below the given start with `stopChar l[j]`
(the backtracking of a greedy run followed by `[, \n]`). -/
def backtrackStop (l : List Char) : Nat → Option Nat
  | 0 => if decide (0 < l.length) && stopChar (l.getD 0 'x') then some 0 else none
  | j + 1 =>
    if decide (j + 1 < l.length) && stopChar (l.getD (j + 1) 'x') then some (j + 1)
    else backtrackStop l j

/-- Match `[ \d]*[, \n]` at the head of `l` with greedy backtracking:
returns the characters captured by `[ \d]*` and the input after the
terminator, or `none` if no amount of `[ \d]*` is followed by a terminator. -/
def greedyStop (l : List Char) : Option (List Char × List Char) :=
  match backtrackStop l (l.takeWhile spaceDigitChar).length with
  | some j => some (l.take j, l.drop (j + 1))
  | none => none

/-- Match `.*?[ \d]*[, \n]` at the head of `l` (lazy `.*?`: the shortest
expansion wins, and `.` does not match a newline).  Returns the characters
captured inside the group and the input after the terminator. -/
def lazyTailFix : List Char → Option (List Char × List Char)
  | [] => none
  | c :: cs =>
    match greedyStop (c :: cs) with
    | some r => some r
    | none =>
      if c = '\n' then none
      else
        match lazyTailFix cs with
        | some (g, rest) => some (c :: g, rest)
        | none => none

/-- Match `.*?[, \n]` at the head of `l` (the pattern without the
space-digit fix). -/
def lazyTailNoFix : List Char → Option (List Char × List Char)
  | [] => none
  | c :: cs =>
    if stopChar c then some ([], cs)
    else if c = '\n' then none
    else
      match lazyTailNoFix cs with
      | some (g, rest) => some (c :: g, rest)
      | none => none

/-- The part of the pattern after the captured head: `.*?[ \d]*[, \n]` when
`space_digit` is set, `.*?[, \n]` otherwise. -/
def tailMatch (space_digit : Bool) (l : List Char) : Option (List Char × List Char) :=
  if space_digit then lazyTailFix l else lazyTailNoFix l

/-- Attempt of the full pattern at the head of `l`: one character of the
prefix class, then the captured group `10\.\d\d\d\d/` + tail.  Returns the
group and the input after the match. -/
def matchAt (space_digit : Bool) : List Char → Option (List Char × List Char)
  | [] => none
  | c :: cs =>
    if prefixClassChar c then
      match matchDoiHead cs with
      | some (h, r1) =>
        match tailMatch space_digit r1 with
        | some (g, r2) => some (h ++ g, r2)
        | none => none
      | none => none
    else none

/-- `re.findall` for the DOI pattern: scan left to right, at each position try
a match; on success record the captured group and continue after the match.
`fuel` bounds the recursion (positions advance strictly, so the length of the
input is enough fuel). -/
def findallAux (space_digit : Bool) : Nat → List Char → List (List Char)
  | 0, _ => []
  | _ + 1, [] => []
  | fuel + 1, c :: cs =>
    match matchAt space_digit (c :: cs) with
    | some (g, rest) => g :: findallAux space_digit fuel rest
    | none => findallAux space_digit fuel cs

/-- All captured groups of the DOI pattern in `l`, leftmost first. -/
def findall (space_digit : Bool) (l : List Char) : List (List Char) :=
  findallAux space_digit l.length l

/-! ## `parse_doi` and `extract_doi` (bib.py lines 192-240) -/

/-- The two failures of DOI extraction: `ValueError('no matches')` and the
`assert len(doi) > 8` quality check. -/
inductive DoiErr where
  | noMatches : DoiErr
  | tooShort : String → DoiErr
deriving DecidableEq

/-- The cleanup applied to the first match: remove `'\n'`, strip `'.'` from
both ends (`str.strip('.')`), and when `space_digit` is set replace every
space by an underscore. -/
def cleanDoi (space_digit : Bool) (m : List Char) : List Char :=
  let m1 := m.filter (fun c => !(c = '\n'))
  let m2 := stripBoth (fun c => c = '.') m1
  if space_digit then m2.map (fun c => if c = ' ' then '_' else c) else m2

/-- `parse_doi(txt, space_digit)`: run the pattern on `txt.lower()`, fail with
`ValueError` when there is no match, otherwise clean the first match and
fail the `len(doi) > 8` assertion when the result is too short. -/
def parse_doi (txt : String) (space_digit : Bool) : Except DoiErr String :=
  match findall space_digit (lowerStr txt).data with
  | [] => Except.error DoiErr.noMatches
  | m :: _ =>
    let d := cleanDoi space_digit m
    if d.length > 8 then Except.ok (String.mk d)
    else Except.error (DoiErr.tooShort (String.mk d))

/-- `extract_doi`, with the two extracted page texts supplied instead of the
PDF: parse page 1; only on `ValueError` (no matches) fall back to page 2.
An assertion failure on page 1 propagates without the fallback. -/
def extract_doi (page1 page2 : String) (space_digit : Bool) : Except DoiErr String :=
  match parse_doi page1 space_digit with
  | Except.error DoiErr.noMatches => parse_doi page2 space_digit
  | r => r

/-! ## Bibliography records (bibtexparser entry dictionaries) -/

/-- A bibliography record: a field-name/value dictionary, modelled as an
association list (first binding wins, keys unique in practice). -/
abbrev Entry := List (String × String)

/-- Python `e.get(f)` as an option (`e[f]` raises when absent). -/
def getField (e : Entry) (f : String) : Option String :=
  (e.find? (fun p => p.1 = f)).map (fun p => p.2)

/-- Python `e.get(f, d)`. -/
def getFieldD (e : Entry) (f d : String) : String :=
  (getField e f).getD d

/-- Python `e[f] = v` on a dictionary: replace the binding if present,
append it otherwise. -/
def setField (e : Entry) (f v : String) : Entry :=
  if e.any (fun p => p.1 = f) then
    e.map (fun p => if p.1 = f then (f, v) else p)
  else e ++ [(f, v)]

/-! ## File association (bib.py lines 15-40) -/

/-- `getentryfiles(e)`: split the `file` field on `;`; a token holding a `:`
is `token.split(':')` (the full split list, as in the source), a token
without one becomes `[token, 'pdf']`. -/
def getentryfiles (e : Entry) : List (List String) :=
  let files := String.mk ((getFieldD e "file" "").data |> stripBoth isSpaceChar)
  if files = "" then []
  else
    (splitOnChar ';' files.data).map (fun ef =>
      if ef.any (fun c => c = ':') then (splitOnChar ':' ef).map String.mk
      else [String.mk ef, "pdf"])

/-- `os.path.splitext` (posix): the extension starts at the last dot that
comes after the last slash, unless the basename up to that dot is all dots. -/
def splitext (p : String) : String × String :=
  let l := p.data
  let sepIdx : Int :=
    match l.reverse.findIdx? (fun c => c = '/') with
    | some j => (l.length : Int) - 1 - j
    | none => -1
  let dotIdx : Int :=
    match l.reverse.findIdx? (fun c => c = '.') with
    | some j => (l.length : Int) - 1 - j
    | none => -1
  if sepIdx < dotIdx then
    let seg := (l.drop (sepIdx + 1).toNat).take (dotIdx - sepIdx - 1).toNat
    if seg.any (fun c => !(c = '.')) then
      (String.mk (l.take dotIdx.toNat), String.mk (l.drop dotIdx.toNat))
    else (p, "")
  else (p, "")

/-- `setentryfiles(e, files, overwrite)`: tag each new path with
`splitext(path)[1][1:]` and store `';'.join(new_tagged + existing)` in the
`file` field; with `overwrite=False` the pre-existing associations contribute
only their `fname` component (the Python list comprehension keeps `fname`
and drops `ftype`). -/
def setentryfiles (e : Entry) (files : List String) (overwrite : Bool) : Entry :=
  let existingfiles :=
    if overwrite then []
    else (getentryfiles e).map (fun p => p.headD "")
  let efiles := files.map (fun f => f ++ ":" ++ String.mk (splitext f).2.data.tail)
  setField e "file" (strIntercalate ";" (efiles ++ existingfiles))

/-! ## Paths (posixpath helpers used by the rename logic) -/

/-- `os.path.join(a, b)` (posix, two arguments). -/
def pathJoin (a b : String) : String :=
  if startsWithSlash b then b
  else if a = "" || endsWithSlash a then a ++ b
  else a ++ "/" ++ b

/-- `os.path.basename`. -/
def pathBasename (p : String) : String :=
  String.mk (((splitOnChar '/' p.data).getLastD p.data))

/-! ## The library index `MyRef` (bib.py lines 62-103) -/

/-- The `MyRef` collection state: the loaded entries, the dedup/sort key
field (`'ID'` by default) and the files directory. -/
structure MyRef where
  entries : List Entry
  key_field : String
  filesdir : String
deriving DecidableEq

/-- `key(e) = e[key_field].lower()`.  The key is kept as its character list
and compared with the code-point order `strLtB`/`strLeB`, which is Python's
`str` order.  A missing key field is modelled as `""` (Python would raise
`KeyError` there). -/
def MyRef.key (st : MyRef) (e : Entry) : List Char :=
  (lowerStr (getFieldD e st.key_field "")).data

/-- `sort(): self.db.entries = sorted(self.db.entries, key=self.key)` —
a stable ascending sort by the normalized key. -/
def MyRef.sort (st : MyRef) : MyRef :=
  { st with entries := st.entries.mergeSort (fun a b => strLeB (st.key a) (st.key b)) }

/-- `bisect.bisect_left(keys, x)`: binary search for the leftmost insertion
point.  `fuel` bounds the loop; the interval at least halves each step, so
`keys.length` is enough. -/
def bisect_left_aux (keys : List (List Char)) (x : List Char) : Nat → Nat → Nat → Nat
  | 0, lo, _ => lo
  | fuel + 1, lo, hi =>
    if lo < hi then
      let mid := (lo + hi) / 2
      if strLtB (keys.getD mid []) x then bisect_left_aux keys x fuel (mid + 1) hi
      else bisect_left_aux keys x fuel lo mid
    else lo

/-- `bisect.bisect_left(keys, x)` over the whole list. -/
def bisect_left (keys : List (List Char)) (x : List Char) : Nat :=
  bisect_left_aux keys x keys.length 0 keys.length

/-- Python `list.insert(i, x)`: insert before position `i` (clamped to the
length, as in Python). -/
def pyInsert {α : Type} (l : List α) (i : Nat) (x : α) : List α :=
  l.take i ++ x :: l.drop i

/-- `insert_entry(e, replace)`: binary-search the key list; when the key is
found return the entry at that slot (overwriting it first when `replace`),
otherwise insert `e` at the computed position. -/
def MyRef.insert_entry (st : MyRef) (e : Entry) (replace : Bool) : MyRef × Entry :=
  let keys := st.entries.map st.key
  let i := bisect_left keys (st.key e)
  if i < keys.length ∧ keys.getD i [] = st.key e then
    let entries' := if replace then st.entries.set i e else st.entries
    ({ st with entries := entries' }, entries'.getD i [])
  else
    ({ st with entries := pyInsert st.entries i e }, e)

/-! ## `rename_entry_files` (bib.py lines 106-138) -/

/-- The body of the multi-file loop of `rename_entry_files`: collect the
`file + ':' + ftype` token built from the *old* path, and record the
relocation of `file` into `newdir` when source and target differ. -/
def renameStep (newdir : String) (acc : List String × List (String × String))
    (p : List String) : List String × List (String × String) :=
  let file := p.headD ""
  let ftype := p.getD 1 ""
  let newfile := pathJoin newdir (pathBasename file)
  (acc.1 ++ [file ++ ":" ++ ftype],
   if file = newfile then acc.2 else acc.2 ++ [(file, newfile)])

/-- `rename_entry_files(e, copy)`: compute the target directory
`<filesdir>/<year>`; with one associated file move it to
`<dir>/<ID><ext>` (skipped when source equals target) and point the
association at the new path; with several files move each into
`<dir>/<ID>/` under its base name but rebuild the `file` field from the
*old* paths.  The returned list holds the relocations performed, as
(source, target) pairs (`copy` only selects `cp` over `mv` in the source
and does not change which relocations happen). -/
def MyRef.rename_entry_files (st : MyRef) (e : Entry) : Entry × List (String × String) :=
  let files := getentryfiles e
  let direc := pathJoin st.filesdir (getFieldD e "year" "")
  if files.length = 0 then (e, [])
  else if files.length = 1 then
    let p := files.headD []
    let file := p.headD ""
    let ftype := p.getD 1 ""
    let ext := (splitext file).2
    let newfile := pathJoin direc (getFieldD e "ID" "" ++ ext)
    (setField e "file" (newfile ++ ":" ++ ftype),
     if file = newfile then [] else [(file, newfile)])
  else
    let newdir := pathJoin direc (getFieldD e "ID" "")
    let r := files.foldl (renameStep newdir) ([], [])
    (setField e "file" (strIntercalate ";" r.1), r.2)

/-! ## `add_pdf` and the `add` command handler (bib.py lines 141-162, 295-312) -/

/-- `MyRef.add_pdf`, with the effectful collaborators abstracted: `extract`
is the outcome `extract_doi(pdf)` would produce, `fetch` of
`fetch_bibtex(doi)`, and `parse0 s` of `bibtexparser.loads(s).entries[0]`.
The pure steps (insert, file association, rename) are the definitions
above.  Python mutates the inserted entry object in place, which updates
the list slot it occupies; the model writes the updated entry back at its
position.  Returns the updated state and the relocations performed. -/
def MyRef.add_pdf {ε : Type} (st : MyRef) (pdf : String)
    (extract : Except ε String) (fetch : String → Except ε String)
    (parse0 : String → Except ε Entry)
    (rename : Bool) (overwrite : Bool) (attachments : List String) :
    Except ε (MyRef × List (String × String)) :=
  match extract with
  | Except.error err => Except.error err
  | Except.ok doiStr =>
    match fetch doiStr with
    | Except.error err => Except.error err
    | Except.ok bibtexStr =>
      match parse0 bibtexStr with
      | Except.error err => Except.error err
      | Except.ok entry =>
        let r1 := st.insert_entry entry false
        let st1 := r1.1
        let entry1 := r1.2
        let i := bisect_left (st1.entries.map st1.key) (st1.key entry1)
        let entry2 := setentryfiles entry1 (pdf :: attachments) overwrite
        let r2 := if rename then st1.rename_entry_files entry2 else (entry2, [])
        Except.ok ({ st1 with entries := st1.entries.set i r2.1 }, r2.2)

/-- Collection construction as the `add` command performs it: `__init__`
loads the entries and sorts them (`key_field = 'ID'`). -/
def myrefInit (loaded : List Entry) (filesdir : String) : MyRef :=
  MyRef.sort { entries := loaded, key_field := "ID", filesdir := filesdir }

/-- The `add` handler `addpdf(o)`, observed on the bibliography storage
file: `file0` is the file's content before the call (`none` when the file
does not exist).  When it exists the collection is loaded from it;
otherwise `MyRef.newbib` writes an empty file before anything else runs.
Then `add_pdf` runs; an exception propagates (the bare `raise`) and skips
the save; otherwise `my.save()` rewrites the file unless `--dry-run` is
set.  Returns the storage file's content afterwards together with the
command's outcome (the relocations on success). -/
def addpdf {ε : Type} (dry_run : Bool) (file0 : Option (List Entry))
    (filesdir pdf : String)
    (extract : Except ε String) (fetch : String → Except ε String)
    (parse0 : String → Except ε Entry)
    (rename : Bool) (append : Bool) (attachments : List String) :
    Option (List Entry) × Except ε (List (String × String)) :=
  let file1 := match file0 with
    | some l => some l
    | none => some ([] : List Entry)
  let loaded := match file0 with
    | some l => l
    | none => ([] : List Entry)
  let my := myrefInit loaded filesdir
  match my.add_pdf pdf extract fetch parse0 rename (!append) attachments with
  | Except.error err => (file1, Except.error err)
  | Except.ok st2moves =>
    ((if dry_run then file1 else some st2moves.1.entries), Except.ok st2moves.2)

/-! ## The fetch cache (bib.py lines 243-258) -/

/-- The memoization wrapper `cached(file)` around `fetch_bibtex`, observed
over one invocation: `cache` is the mapping loaded from the side file,
`fnResult` the outcome the wrapped lookup would produce, `dryrun` the
process-wide flag.  Returns the call's result, the cache afterwards,
whether the wrapped function ran, and the mapping written to the side
file (`none` when nothing is written). -/
def cachedCall {ε : Type} (cache : List (String × String)) (doiKey : String)
    (fnResult : Except ε String) (dryrun : Bool) :
    Except ε String × List (String × String) × Bool × Option (List (String × String)) :=
  match getField cache doiKey with
  | some v => (Except.ok v, cache, false, none)
  | none =>
    match fnResult with
    | Except.error err => (Except.error err, cache, true, none)
    | Except.ok res =>
      let cache2 := setField cache doiKey res
      (Except.ok res, cache2, true, if dryrun then none else some cache2)

/-! ## Helper lemmas -/

/-- Dictionary lookup on a cons cell. -/
theorem getField_cons (q : String × String) (e : Entry) (f : String) :
    getField (q :: e) f = if q.1 = f then some q.2 else getField e f := by
  by_cases h : q.1 = f
  · simp [getField, List.find?_cons_of_pos, h]
  · rw [if_neg h]
    unfold getField
    rw [List.find?_cons_of_neg]
    simp [h]

/-- Looking up `f` after `setField e f v` yields `v` (dictionary write/read). -/
theorem getField_setField (e : Entry) (f v : String) :
    getField (setField e f v) f = some v := by
  unfold setField
  by_cases h : e.any (fun p => p.1 = f) = true
  · rw [if_pos h]
    induction e with
    | nil => simp at h
    | cons p ps ih =>
      by_cases hp : p.1 = f
      · simp [getField_cons, if_pos hp]
      · rw [List.map_cons, if_neg hp, getField_cons, if_neg hp]
        apply ih
        simp only [List.any_cons, Bool.or_eq_true, decide_eq_true_eq] at h
        exact h.resolve_left hp
  · rw [if_neg h]
    induction e with
    | nil => simp [getField_cons]
    | cons p ps ih =>
      simp only [List.any_cons, Bool.or_eq_true, decide_eq_true_eq] at h
      push_neg at h
      rw [List.cons_append, getField_cons, if_neg h.1]
      exact ih (by simpa using h.2)

/-- Unrolling the multi-file rename loop: the tokens are the old
`path:type` pairs in order, and the relocations are those files whose old
path differs from the target path. -/
theorem foldl_renameStep (newdir : String) (files : List (List String))
    (acc1 : List String) (acc2 : List (String × String)) :
    files.foldl (renameStep newdir) (acc1, acc2)
      = (acc1 ++ files.map (fun p => p.headD "" ++ ":" ++ p.getD 1 ""),
         acc2 ++ files.flatMap (fun p =>
           if p.headD "" = pathJoin newdir (pathBasename (p.headD "")) then []
           else [(p.headD "", pathJoin newdir (pathBasename (p.headD "")))])) := by
  induction files generalizing acc1 acc2 with
  | nil => simp
  | cons p ps ih =>
    simp only [List.foldl_cons, renameStep, List.map_cons, List.flatMap_cons,
      List.headD_eq_head?]
    rw [ih]
    by_cases h : p.head?.getD "" = pathJoin newdir (pathBasename (p.head?.getD ""))
    · simp only [if_pos h, List.headD_eq_head?]
      simp
    · simp only [if_neg h, List.headD_eq_head?]
      simp

/-! ## Claim theorems: file association and rename -/

/-- Claim C5, counterexample: a record whose `file` field holds the
association `/a/x.txt` with type tag `txt`; after `setentryfiles` with
`overwrite=False` and new path `/b/y.pdf`, the stored field is
`/b/y.pdf:pdf;/a/x.txt` — the old path survives but its `txt` tag is gone
(the re-parsed association defaults to `pdf`), refuting "every pre-existing
association (its path and its type tag) is preserved". -/
theorem setentryfiles_append_drops_type_tag :
    getentryfiles [("file", "/a/x.txt:txt")] = [["/a/x.txt", "txt"]]
    ∧ setentryfiles [("file", "/a/x.txt:txt")] ["/b/y.pdf"] false
        = [("file", "/b/y.pdf:pdf;/a/x.txt")]
    ∧ getentryfiles (setentryfiles [("file", "/a/x.txt:txt")] ["/b/y.pdf"] false)
        = [["/b/y.pdf", "pdf"], ["/a/x.txt", "pdf"]]
    ∧ ["/a/x.txt", "txt"] ∉
        getentryfiles (setentryfiles [("file", "/a/x.txt:txt")] ["/b/y.pdf"] false) :=
  ⟨by decide, by decide, by decide, by decide⟩

/-- Claim C5 (amended): with `overwrite=true` the `file` field becomes
exactly the new paths, each tagged with its extension-derived type; with
`overwrite=false` the tagged new paths are prepended and the pre-existing
associations contribute only their path component (their type tags are
dropped, so they re-parse with the default `pdf` type). -/
theorem setentryfiles_field (e : Entry) (files : List String) :
    getField (setentryfiles e files true) "file"
      = some (strIntercalate ";"
          (files.map (fun f => f ++ ":" ++ String.mk (splitext f).2.data.tail)))
    ∧ getField (setentryfiles e files false) "file"
      = some (strIntercalate ";"
          (files.map (fun f => f ++ ":" ++ String.mk (splitext f).2.data.tail)
            ++ (getentryfiles e).map (fun p => p.headD ""))) := by
  constructor
  · unfold setentryfiles
    simp [getField_setField]
  · unfold setentryfiles
    simp [getField_setField]

/-- Claim C6: in the multi-file case (two or more associated files) every
file is relocated into the per-record subdirectory
`<filesdir>/<year>/<ID>/` under its base name (skipping files already at
their target), but the record's `file` field is rebuilt from the files'
*old* paths joined with their type tags, so the stored association paths
still name the original locations. -/
theorem rename_entry_files_multi (st : MyRef) (e : Entry)
    (h : 2 ≤ (getentryfiles e).length) :
    (st.rename_entry_files e).1
      = setField e "file" (strIntercalate ";"
          ((getentryfiles e).map (fun p => p.headD "" ++ ":" ++ p.getD 1 "")))
    ∧ (st.rename_entry_files e).2
      = (getentryfiles e).flatMap (fun p =>
          if p.headD "" = pathJoin (pathJoin (pathJoin st.filesdir (getFieldD e "year" ""))
                (getFieldD e "ID" "")) (pathBasename (p.headD ""))
          then []
          else [(p.headD "",
                 pathJoin (pathJoin (pathJoin st.filesdir (getFieldD e "year" ""))
                   (getFieldD e "ID" "")) (pathBasename (p.headD "")))]) := by
  have h0 : ¬ ((getentryfiles e).length = 0) := by omega
  have h1 : ¬ ((getentryfiles e).length = 1) := by omega
  unfold MyRef.rename_entry_files
  rw [if_neg h0, if_neg h1]
  simp only [foldl_renameStep]
  simp

/-- Witness for C6: a record with two associated files, each moved into
`/lib/2020/smith2020/` while the stored field keeps the old paths. -/
theorem rename_entry_files_multi_witness :
    2 ≤ (getentryfiles
          [("ID", "smith2020"), ("year", "2020"),
           ("file", "/tmp/x.pdf:pdf;/tmp/si.pdf:pdf")]).length
    ∧ ((MyRef.mk [] "ID" "/lib").rename_entry_files
          [("ID", "smith2020"), ("year", "2020"),
           ("file", "/tmp/x.pdf:pdf;/tmp/si.pdf:pdf")]).1
        = setField [("ID", "smith2020"), ("year", "2020"),
            ("file", "/tmp/x.pdf:pdf;/tmp/si.pdf:pdf")] "file"
            (strIntercalate ";"
              ((getentryfiles [("ID", "smith2020"), ("year", "2020"),
                  ("file", "/tmp/x.pdf:pdf;/tmp/si.pdf:pdf")]).map
                (fun p => p.headD "" ++ ":" ++ p.getD 1 "")))
    ∧ ((MyRef.mk [] "ID" "/lib").rename_entry_files
          [("ID", "smith2020"), ("year", "2020"),
           ("file", "/tmp/x.pdf:pdf;/tmp/si.pdf:pdf")]).2
        = (getentryfiles [("ID", "smith2020"), ("year", "2020"),
              ("file", "/tmp/x.pdf:pdf;/tmp/si.pdf:pdf")]).flatMap (fun p =>
            if p.headD "" = pathJoin (pathJoin (pathJoin "/lib"
                  (getFieldD [("ID", "smith2020"), ("year", "2020"),
                    ("file", "/tmp/x.pdf:pdf;/tmp/si.pdf:pdf")] "year" ""))
                  (getFieldD [("ID", "smith2020"), ("year", "2020"),
                    ("file", "/tmp/x.pdf:pdf;/tmp/si.pdf:pdf")] "ID" ""))
                  (pathBasename (p.headD ""))
            then []
            else [(p.headD "",
                   pathJoin (pathJoin (pathJoin "/lib"
                     (getFieldD [("ID", "smith2020"), ("year", "2020"),
                       ("file", "/tmp/x.pdf:pdf;/tmp/si.pdf:pdf")] "year" ""))
                     (getFieldD [("ID", "smith2020"), ("year", "2020"),
                       ("file", "/tmp/x.pdf:pdf;/tmp/si.pdf:pdf")] "ID" ""))
                     (pathBasename (p.headD "")))]) :=
  ⟨by decide,
   (rename_entry_files_multi (MyRef.mk [] "ID" "/lib") _ (by decide)).1,
   (rename_entry_files_multi (MyRef.mk [] "ID" "/lib") _ (by decide)).2⟩

/-- Claim C7: on text containing `doi:10.5194/bg 8 515 2011,` with the
space-digit fix enabled the first (and only) match of the pattern is
`10.5194/bg 8 515 2011`, and `parse_doi` returns exactly
`10.5194/bg_8_515_2011` after the cleanup (no newlines or surrounding
periods to strip here, internal spaces replaced by underscores). -/
theorem parse_doi_space_digit_normalization :
    findall true (lowerStr "doi:10.5194/bg 8 515 2011,").data
      = ["10.5194/bg 8 515 2011".data]
    ∧ parse_doi "doi:10.5194/bg 8 515 2011," true = Except.ok "10.5194/bg_8_515_2011" :=
  And.intro (by decide) rfl

/-- Claim C8: a record with identifier `smith2020`, year `2020` and the
single associated file `/tmp/x.pdf`, renamed with files-root `/lib`,
relocates the file to `/lib/2020/smith2020.pdf` and points the stored
association there; when the file already sits at its target the relocation
is skipped and the association is unchanged. -/
theorem rename_entry_files_single :
    (MyRef.mk [] "ID" "/lib").rename_entry_files
        [("ID", "smith2020"), ("year", "2020"), ("file", "/tmp/x.pdf")]
      = ([("ID", "smith2020"), ("year", "2020"),
          ("file", "/lib/2020/smith2020.pdf:pdf")],
         [("/tmp/x.pdf", "/lib/2020/smith2020.pdf")])
    ∧ getentryfiles [("ID", "smith2020"), ("year", "2020"),
          ("file", "/lib/2020/smith2020.pdf:pdf")]
      = [["/lib/2020/smith2020.pdf", "pdf"]]
    ∧ (MyRef.mk [] "ID" "/lib").rename_entry_files
        [("ID", "smith2020"), ("year", "2020"),
         ("file", "/lib/2020/smith2020.pdf:pdf")]
      = ([("ID", "smith2020"), ("year", "2020"),
          ("file", "/lib/2020/smith2020.pdf:pdf")], []) :=
  ⟨by decide, by decide, by decide⟩

/-! ## Claim theorems: cache and `add` control flow -/

/-- Claim C10: a cache hit returns the stored value without running the
wrapped lookup and writes nothing; a miss runs the lookup, and on success
stores the result under the key and persists the full updated mapping
unless the dry-run flag is set, while on failure the error propagates with
the cache unchanged and nothing stored or written. -/
theorem cachedCall_spec {ε : Type} (cache : List (String × String))
    (doiKey : String) (fnResult : Except ε String) (dryrun : Bool) :
    (∀ v, getField cache doiKey = some v →
      cachedCall cache doiKey fnResult dryrun = (Except.ok v, cache, false, none))
    ∧ (getField cache doiKey = none →
        (∀ res, fnResult = Except.ok res →
          cachedCall cache doiKey fnResult dryrun
            = (Except.ok res, setField cache doiKey res, true,
               if dryrun then none else some (setField cache doiKey res)))
        ∧ (∀ err, fnResult = Except.error err →
          cachedCall cache doiKey fnResult dryrun
            = (Except.error err, cache, true, none))) := by
  refine ⟨fun v hv => ?_, fun hmiss => ⟨fun res hres => ?_, fun err herr => ?_⟩⟩
  · unfold cachedCall
    rw [hv]
  · unfold cachedCall
    rw [hmiss, hres]
  · unfold cachedCall
    rw [hmiss, herr]

/-- Witness for C10: the three cases of `cachedCall` at concrete inputs —
a hit on a one-entry cache, a miss that stores and persists, and a failed
lookup that leaves the cache alone. -/
theorem cachedCall_spec_witness :
    cachedCall [("10.1/a", "X")] "10.1/a" (Except.ok "Y" : Except Unit String) false
      = (Except.ok "X", [("10.1/a", "X")], false, none)
    ∧ cachedCall [] "10.1/a" (Except.ok "Y" : Except Unit String) false
      = (Except.ok "Y", setField [] "10.1/a" "Y", true,
         if false then none else some (setField [] "10.1/a" "Y"))
    ∧ cachedCall [] "10.1/a" (Except.error () : Except Unit String) true
      = (Except.error (), [], true, none) :=
  ⟨(cachedCall_spec [("10.1/a", "X")] "10.1/a" (Except.ok "Y") false).1 "X" rfl,
   ((cachedCall_spec [] "10.1/a" (Except.ok "Y") false).2 rfl).1 "Y" rfl,
   ((cachedCall_spec [] "10.1/a" (Except.error ()) true).2 rfl).2 () rfl⟩

/-- Claim C9, counterexample: with no pre-existing bibliography file
(`file0 = none`) and a pipeline that fails at the very first stage, the
`add` command still leaves an empty bibliography file behind —
`MyRef.newbib` writes it before the pipeline runs — so the storage file is
not left untouched. -/
theorem addpdf_failure_creates_empty_file :
    (@addpdf Unit false none "/lib" "/tmp/x.pdf" (Except.error ())
        (fun _ => Except.error ()) (fun _ => Except.error ()) false false []).2
      = Except.error ()
    ∧ (@addpdf Unit false none "/lib" "/tmp/x.pdf" (Except.error ())
        (fun _ => Except.error ()) (fun _ => Except.error ()) false false []).1
      = some []
    ∧ some ([] : List Entry) ≠ (none : Option (List Entry)) :=
  ⟨rfl, rfl, by decide⟩

/-- Claim C9 (amended): whenever the `add` pipeline fails, or the dry-run
flag is set, the bibliography storage file keeps the content it had —
except that when it did not exist, `MyRef.newbib` has already created it
empty before the pipeline ran, so after the call it holds the empty
collection.  The save step runs only on full success without dry-run. -/
theorem addpdf_save_only_after_success {ε : Type} (dry_run : Bool)
    (file0 : Option (List Entry)) (filesdir pdf : String)
    (extract : Except ε String) (fetch : String → Except ε String)
    (parse0 : String → Except ε Entry) (rename append : Bool)
    (attachments : List String)
    (h : (∃ err, (addpdf dry_run file0 filesdir pdf extract fetch parse0
            rename append attachments).2 = Except.error err)
         ∨ dry_run = true) :
    (addpdf dry_run file0 filesdir pdf extract fetch parse0
        rename append attachments).1
      = some (file0.getD []) := by
  cases file0 with
  | none =>
    simp only [addpdf] at h ⊢
    cases hr : MyRef.add_pdf (myrefInit [] filesdir) pdf extract fetch parse0
        rename (!append) attachments with
    | error err => simp [hr]
    | ok stm =>
      rcases h with ⟨err, herr⟩ | hdry
      · rw [hr] at herr
        simp at herr
      · simp [hr, hdry]
  | some l =>
    simp only [addpdf] at h ⊢
    cases hr : MyRef.add_pdf (myrefInit l filesdir) pdf extract fetch parse0
        rename (!append) attachments with
    | error err => simp [hr]
    | ok stm =>
      rcases h with ⟨err, herr⟩ | hdry
      · rw [hr] at herr
        simp at herr
      · simp [hr, hdry]

/-- Witness for C9: a failing pipeline over an existing one-entry
bibliography file leaves that file's content in place. -/
theorem addpdf_save_only_after_success_witness :
    ((∃ err, (@addpdf Unit false (some [[("ID", "aa")]]) "/lib" "/tmp/x.pdf"
        (Except.error ()) (fun _ => Except.error ()) (fun _ => Except.error ())
        false false []).2 = Except.error err) ∨ false = true)
    ∧ (@addpdf Unit false (some [[("ID", "aa")]]) "/lib" "/tmp/x.pdf"
        (Except.error ()) (fun _ => Except.error ()) (fun _ => Except.error ())
        false false []).1 = some ((some [[("ID", "aa")]]).getD []) :=
  ⟨Or.inl ⟨(), rfl⟩,
   addpdf_save_only_after_success false (some [[("ID", "aa")]]) "/lib" "/tmp/x.pdf"
     (Except.error ()) (fun _ => Except.error ()) (fun _ => Except.error ())
     false false [] (Or.inl ⟨(), rfl⟩)⟩

/-! ## Claim theorems: DOI extraction -/

/-- `parse_doi` raises `ValueError('no matches')` exactly when the pattern
finds nothing in the lowercased text. -/
theorem parse_doi_eq_noMatches (s : String) (sd : Bool) :
    parse_doi s sd = Except.error DoiErr.noMatches
      ↔ findall sd (lowerStr s).data = [] := by
  unfold parse_doi
  cases h : findall sd (lowerStr s).data with
  | nil => simp
  | cons m ms =>
    dsimp only
    by_cases hlen : (cleanDoi sd m).length > 8
    · simp [hlen]
    · simp [hlen]

/-- `parse_doi` fails the `len(doi) > 8` assertion exactly when there is a
first match whose cleaned form has length at most 8. -/
theorem parse_doi_eq_tooShort (s : String) (sd : Bool) :
    (∃ d, parse_doi s sd = Except.error (DoiErr.tooShort d))
      ↔ ∃ m ms, findall sd (lowerStr s).data = m :: ms
          ∧ (cleanDoi sd m).length ≤ 8 := by
  unfold parse_doi
  cases h : findall sd (lowerStr s).data with
  | nil => simp
  | cons m ms =>
    dsimp only
    by_cases hlen : (cleanDoi sd m).length > 8
    · rw [if_pos hlen]
      constructor
      · rintro ⟨d, hd⟩
        exact absurd hd (by simp)
      · rintro ⟨m', ms', hm, hlen'⟩
        injection hm with h1 h2
        subst h1
        omega
    · rw [if_neg hlen]
      constructor
      · rintro ⟨d, hd⟩
        exact ⟨m, ms, rfl, by omega⟩
      · rintro _
        exact ⟨String.mk (cleanDoi sd m), rfl⟩

/-- Claim C4: `extract_doi` fails with the not-found error exactly when the
pattern matches in neither the page-1 nor the fallback page-2 text; it
fails with the validation error exactly when the page consulted (page 1,
or page 2 only after page 1 had no match at all) yields a first match of
cleaned length at most 8; at the boundary, a match cleaning to the
8-character `10.1234/` raises the validation failure while the 9-character
`10.1234/x` does not. -/
theorem extract_doi_error_characterization (space_digit : Bool)
    (page1 page2 : String) :
    (extract_doi page1 page2 space_digit = Except.error DoiErr.noMatches
      ↔ findall space_digit (lowerStr page1).data = []
        ∧ findall space_digit (lowerStr page2).data = [])
    ∧ ((∃ d, extract_doi page1 page2 space_digit = Except.error (DoiErr.tooShort d))
      ↔ ((∃ m ms, findall space_digit (lowerStr page1).data = m :: ms
            ∧ (cleanDoi space_digit m).length ≤ 8)
         ∨ (findall space_digit (lowerStr page1).data = []
            ∧ ∃ m ms, findall space_digit (lowerStr page2).data = m :: ms
              ∧ (cleanDoi space_digit m).length ≤ 8)))
    ∧ parse_doi "doi:10.1234/," true = Except.error (DoiErr.tooShort "10.1234/")
    ∧ parse_doi "doi:10.1234/x," true = Except.ok "10.1234/x" := by
  have hnm : extract_doi page1 page2 space_digit = Except.error DoiErr.noMatches
      ↔ parse_doi page1 space_digit = Except.error DoiErr.noMatches
        ∧ parse_doi page2 space_digit = Except.error DoiErr.noMatches := by
    unfold extract_doi
    cases hp1 : parse_doi page1 space_digit with
    | error e1 =>
      cases e1 with
      | noMatches => simp
      | tooShort d => simp
    | ok v => simp
  have hts : (∃ d, extract_doi page1 page2 space_digit
        = Except.error (DoiErr.tooShort d))
      ↔ ((∃ d, parse_doi page1 space_digit = Except.error (DoiErr.tooShort d))
         ∨ (parse_doi page1 space_digit = Except.error DoiErr.noMatches
            ∧ ∃ d, parse_doi page2 space_digit = Except.error (DoiErr.tooShort d))) := by
    unfold extract_doi
    cases hp1 : parse_doi page1 space_digit with
    | error e1 =>
      cases e1 with
      | noMatches => simp
      | tooShort d => simp
    | ok v => simp
  refine ⟨?_, ?_, rfl, rfl⟩
  · rw [hnm, parse_doi_eq_noMatches, parse_doi_eq_noMatches]
  · rw [hts, parse_doi_eq_tooShort, parse_doi_eq_tooShort, parse_doi_eq_noMatches]

/-- Claim C1 (amended): the pattern's "prefix" is a single character from
the class {d, o, i, :, |, space, x, ., /, r, g} (the five prefix
alternatives were joined into one character class, whose members are their
individual characters — `r` and `g` coming from the `org` of
`dx.doi.org/`), so a candidate is matched precisely when the character
immediately before the `10.XXXX/` body lies in that class and the body and
terminator match; in particular ` 10.1234/abcdefg,` (body preceded only by
a space) and `r10.1234/abcdef,` (preceded only by an `r`) are matched
although no full recognized prefix occurs in them, while a body preceded
by a tab yields no match. -/
theorem matchAt_prefix_character_class (space_digit : Bool) (c : Char)
    (rest : List Char) :
    ((matchAt space_digit (c :: rest)).isSome
      ↔ (prefixClassChar c = true
         ∧ ∃ pr, matchDoiHead rest = some pr
             ∧ (tailMatch space_digit pr.2).isSome))
    ∧ parse_doi " 10.1234/abcdefg," true = Except.ok "10.1234/abcdefg"
    ∧ parse_doi "r10.1234/abcdef," true = Except.ok "10.1234/abcdef"
    ∧ parse_doi "\t10.1234/abcdefg," true = Except.error DoiErr.noMatches := by
  refine ⟨?_, rfl, rfl, rfl⟩
  simp only [matchAt]
  by_cases hc : prefixClassChar c = true
  · rw [if_pos hc]
    cases hh : matchDoiHead rest with
    | none => simp [hh]
    | some pr =>
      cases ht : tailMatch space_digit pr.2 with
      | none =>
        cases pr with
        | mk h1 r1 => simp_all
      | some g2 =>
        cases pr with
        | mk h1 r1 =>
          cases g2 with
          | mk g r2 => simp_all
  · rw [if_neg hc]
    simp [hc]

/-- Claim C1, counterexample: the text ` 10.1234/abcdefg,` contains none of
the five recognized prefixes (`doi:`, `doi: `, `doi `, `dx.doi.org/`,
`doi/`), yet `parse_doi` extracts `10.1234/abcdefg` from it — the single
space before the body is in the pattern's character class, so a DOI-shaped
substring preceded by none of the listed prefixes can still match. -/
theorem parse_doi_matches_without_recognized_prefix :
    parse_doi " 10.1234/abcdefg," true = Except.ok "10.1234/abcdefg"
    ∧ (["doi:", "doi: ", "doi ", "dx.doi.org/", "doi/"].all
        (fun p => !(decide (p.data <:+: (lowerStr " 10.1234/abcdefg,").data)))) = true :=
  ⟨rfl, by decide⟩

/-! ## The code-point order on keys -/

/-- Characters with equal code points are equal. -/
theorem charEqOfToNat {a b : Char} (h : a.toNat = b.toNat) : a = b :=
  Char.eq_of_val_eq (UInt32.toNat.inj h)

/-- Nothing is below the empty string. -/
theorem strLtB_nil_right (a : List Char) : strLtB a [] = false := by
  cases a <;> rfl

/-- The string order is irreflexive. -/
theorem strLtB_irrefl (a : List Char) : strLtB a a = false := by
  induction a with
  | nil => rfl
  | cons c cs ih => simp [strLtB, ih]

/-- The string order is transitive. -/
theorem strLtB_trans {a b c : List Char} (hab : strLtB a b = true)
    (hbc : strLtB b c = true) : strLtB a c = true := by
  induction a generalizing b c with
  | nil =>
    cases c with
    | nil => rw [strLtB_nil_right] at hbc; exact absurd hbc (by simp)
    | cons c0 cs => rfl
  | cons a0 as ih =>
    cases b with
    | nil => rw [strLtB_nil_right] at hab; exact absurd hab (by simp)
    | cons b0 bs =>
      cases c with
      | nil => rw [strLtB_nil_right] at hbc; exact absurd hbc (by simp)
      | cons c0 cs =>
        simp only [strLtB] at hab hbc ⊢
        by_cases h1 : a0.toNat < b0.toNat
        · by_cases h2 : b0.toNat < c0.toNat
          · rw [if_pos (by omega)]
          · by_cases h3 : c0.toNat < b0.toNat
            · rw [if_neg h2, if_pos h3] at hbc
              exact absurd hbc (by simp)
            · rw [if_pos (by omega)]
        · by_cases h1' : b0.toNat < a0.toNat
          · rw [if_neg h1, if_pos h1'] at hab
            exact absurd hab (by simp)
          · rw [if_neg h1, if_neg h1'] at hab
            by_cases h2 : b0.toNat < c0.toNat
            · rw [if_pos (by omega)]
            · by_cases h3 : c0.toNat < b0.toNat
              · rw [if_neg h2, if_pos h3] at hbc
                exact absurd hbc (by simp)
              · rw [if_neg h2, if_neg h3] at hbc
                rw [if_neg (by omega), if_neg (by omega)]
                exact ih hab hbc

/-- Two strings neither of which is below the other are equal. -/
theorem strLtB_eq_of_not_lt {a b : List Char} (hab : strLtB a b = false)
    (hba : strLtB b a = false) : a = b := by
  induction a generalizing b with
  | nil =>
    cases b with
    | nil => rfl
    | cons b0 bs => exact absurd hab (by simp [strLtB])
  | cons a0 as ih =>
    cases b with
    | nil => exact absurd hba (by simp [strLtB])
    | cons b0 bs =>
      simp only [strLtB] at hab hba
      by_cases h1 : a0.toNat < b0.toNat
      · rw [if_pos h1] at hab; exact absurd hab (by simp)
      · by_cases h2 : b0.toNat < a0.toNat
        · rw [if_pos h2] at hba; exact absurd hba (by simp)
        · rw [if_neg h1, if_neg h2] at hab
          rw [if_neg h2, if_neg h1] at hba
          rw [charEqOfToNat (by omega : a0.toNat = b0.toNat), ih hab hba]

/-- `a <= b` holds exactly when `b < a` fails. -/
theorem strLeB_iff_not_lt {a b : List Char} :
    strLeB a b = true ↔ strLtB b a = false := by
  simp [strLeB]

/-- The key order is reflexive. -/
theorem strLeB_refl (a : List Char) : strLeB a a = true := by
  simp [strLeB, strLtB_irrefl]

/-- The string order is asymmetric. -/
theorem strLtB_asymm {a b : List Char} (h : strLtB a b = true) :
    strLtB b a = false := by
  by_contra hcon
  have hba : strLtB b a = true := by simpa using hcon
  have h2 := strLtB_trans h hba
  rw [strLtB_irrefl] at h2
  exact absurd h2 (by simp)

/-- Strict below implies at most. -/
theorem strLeB_of_lt {a b : List Char} (h : strLtB a b = true) :
    strLeB a b = true :=
  strLeB_iff_not_lt.mpr (strLtB_asymm h)

/-- The key order is transitive. -/
theorem strLeB_trans {a b c : List Char} (hab : strLeB a b = true)
    (hbc : strLeB b c = true) : strLeB a c = true := by
  rw [strLeB_iff_not_lt] at hab hbc ⊢
  by_contra hcon
  have hca : strLtB c a = true := by simpa using hcon
  by_cases hbc' : strLtB b c = true
  · have h2 := strLtB_trans hbc' hca
    rw [hab] at h2
    exact absurd h2 (by simp)
  · have heq : b = c := strLtB_eq_of_not_lt (by simpa using hbc') hbc
    subst heq
    rw [hab] at hca
    exact absurd hca (by simp)

/-- The key order is total. -/
theorem strLeB_total (a b : List Char) : (strLeB a b || strLeB b a) = true := by
  by_cases h : strLtB b a = true
  · have h2 := strLtB_asymm h
    simp [strLeB, h2]
  · have h2 : strLtB b a = false := by simpa using h
    simp [strLeB, h2]

/-! ## The sorted-index invariant and `bisect_left` correctness -/

/-- The ordering invariant of the collection: the sequence of normalized
keys of `db.entries` is non-decreasing in Python's string order. -/
abbrev sortedByKey (st : MyRef) : Prop :=
  List.Pairwise (fun a b => strLeB a b = true) (st.entries.map st.key)

/-- The key of the state with replaced entries is the key of the original
state (it depends only on `key_field`). -/
theorem key_update (st : MyRef) (l : List Entry) :
    MyRef.key { st with entries := l } = st.key := rfl

/-- In a non-decreasing key list, earlier elements are at most later ones. -/
theorem pairwise_getD_le {keys : List (List Char)}
    (hs : List.Pairwise (fun a b => strLeB a b = true) keys)
    {i j : Nat} (hij : i ≤ j) (hj : j < keys.length) :
    strLeB (keys.getD i []) (keys.getD j []) = true := by
  rcases Nat.eq_or_lt_of_le hij with h | h
  · subst h
    exact strLeB_refl _
  · have hi : i < keys.length := lt_trans h hj
    rw [List.getD_eq_getElem _ _ hi, List.getD_eq_getElem _ _ hj]
    have h2 := List.pairwise_iff_get.mp hs ⟨i, hi⟩ ⟨j, hj⟩ h
    simpa [List.get_eq_getElem] using h2

/-- Correctness of the binary-search loop on a sorted key list: the result
`r` lies in `[lo, hi]`, every key strictly before `r` is below `x`, and no
key from `r` up to `hi` is below `x`. -/
theorem bisect_left_aux_spec (keys : List (List Char)) (x : List Char)
    (hs : List.Pairwise (fun a b => strLeB a b = true) keys) :
    ∀ fuel lo hi, hi ≤ keys.length → lo ≤ hi → hi - lo ≤ fuel →
      lo ≤ bisect_left_aux keys x fuel lo hi
      ∧ bisect_left_aux keys x fuel lo hi ≤ hi
      ∧ (∀ j, lo ≤ j → j < bisect_left_aux keys x fuel lo hi →
          strLtB (keys.getD j []) x = true)
      ∧ (∀ j, bisect_left_aux keys x fuel lo hi ≤ j → j < hi →
          strLtB (keys.getD j []) x = false) := by
  intro fuel
  induction fuel with
  | zero =>
    intro lo hi hhi hlo hfuel
    have hlh : lo = hi := by omega
    subst hlh
    simp only [bisect_left_aux]
    exact ⟨le_refl _, le_refl _, fun j h1 h2 => by omega, fun j h1 h2 => by omega⟩
  | succ fuel ih =>
    intro lo hi hhi hlo hfuel
    simp only [bisect_left_aux]
    by_cases hlohi : lo < hi
    · rw [if_pos hlohi]
      have hmid1 : lo ≤ (lo + hi) / 2 := by omega
      have hmid2 : (lo + hi) / 2 < hi := by omega
      by_cases hcmp : strLtB (keys.getD ((lo + hi) / 2) []) x = true
      · rw [if_pos hcmp]
        obtain ⟨h1, h2, h3, h4⟩ := ih ((lo + hi) / 2 + 1) hi hhi (by omega) (by omega)
        refine ⟨by omega, h2, ?_, h4⟩
        intro j hj1 hj2
        by_cases hjm : j ≤ (lo + hi) / 2
        · have hle : strLeB (keys.getD j []) (keys.getD ((lo + hi) / 2) []) = true :=
            pairwise_getD_le hs hjm (by omega)
          by_contra hcon
          have hxj : strLeB x (keys.getD j []) = true :=
            strLeB_iff_not_lt.mpr (by simpa using hcon)
          have hxm := strLeB_trans hxj hle
          rw [strLeB_iff_not_lt] at hxm
          rw [hxm] at hcmp
          exact absurd hcmp (by simp)
        · exact h3 j (by omega) hj2
      · rw [if_neg hcmp]
        obtain ⟨h1, h2, h3, h4⟩ := ih lo ((lo + hi) / 2) (by omega) (by omega) (by omega)
        refine ⟨h1, by omega, h3, ?_⟩
        intro j hj1 hj2
        by_cases hjm : j < (lo + hi) / 2
        · exact h4 j hj1 hjm
        · have hcmp' : strLtB (keys.getD ((lo + hi) / 2) []) x = false := by
            simpa using hcmp
          have hxm : strLeB x (keys.getD ((lo + hi) / 2) []) = true :=
            strLeB_iff_not_lt.mpr hcmp'
          have hmj : strLeB (keys.getD ((lo + hi) / 2) []) (keys.getD j []) = true :=
            pairwise_getD_le hs (by omega) (by omega)
          exact strLeB_iff_not_lt.mp (strLeB_trans hxm hmj)
    · rw [if_neg hlohi]
      exact ⟨le_refl _, by omega, fun j h1 h2 => by omega, fun j h1 h2 => by omega⟩

/-- Correctness of `bisect_left` on a sorted key list. -/
theorem bisect_left_spec (keys : List (List Char)) (x : List Char)
    (hs : List.Pairwise (fun a b => strLeB a b = true) keys) :
    bisect_left keys x ≤ keys.length
    ∧ (∀ j, j < bisect_left keys x → strLtB (keys.getD j []) x = true)
    ∧ (∀ j, bisect_left keys x ≤ j → j < keys.length →
        strLtB (keys.getD j []) x = false) := by
  obtain ⟨h1, h2, h3, h4⟩ := bisect_left_aux_spec keys x hs keys.length 0 keys.length
    (le_refl _) (Nat.zero_le _) (by omega)
  exact ⟨h2, fun j hj => h3 j (Nat.zero_le _) hj, h4⟩

/-- On a sorted key list containing `x`, `bisect_left` lands on a slot that
holds exactly `x`. -/
theorem bisect_left_found {keys : List (List Char)} {x : List Char}
    (hs : List.Pairwise (fun a b => strLeB a b = true) keys)
    (hmem : x ∈ keys) :
    bisect_left keys x < keys.length
    ∧ keys.getD (bisect_left keys x) [] = x := by
  obtain ⟨hle, hlt, hge⟩ := bisect_left_spec keys x hs
  obtain ⟨j, hj, hjx⟩ := List.mem_iff_getElem.mp hmem
  have hjge : bisect_left keys x ≤ j := by
    by_contra hcon
    push_neg at hcon
    have h2 := hlt j hcon
    rw [List.getD_eq_getElem _ _ hj, hjx, strLtB_irrefl] at h2
    exact absurd h2 (by simp)
  have hlen : bisect_left keys x < keys.length := lt_of_le_of_lt hjge hj
  refine ⟨hlen, ?_⟩
  have h1 : strLtB (keys.getD (bisect_left keys x) []) x = false :=
    hge _ (le_refl _) hlen
  have h2 : strLeB (keys.getD (bisect_left keys x) []) (keys.getD j []) = true :=
    pairwise_getD_le hs hjge hj
  rw [List.getD_eq_getElem _ _ hj, hjx, strLeB_iff_not_lt] at h2
  exact strLtB_eq_of_not_lt h1 h2

/-- Writing back the value already at a slot leaves the list unchanged. -/
theorem set_getD_self {α : Type} (l : List α) (d : α) (i : Nat)
    (h : i < l.length) : l.set i (l.getD i d) = l := by
  apply List.ext_getElem
  · simp
  · intro n h1 h2
    rw [List.getElem_set]
    split
    · next heq => subst heq; rw [List.getD_eq_getElem _ _ h]
    · rfl

/-- Inserting `x` at a position where everything before is below `x` and
nothing from there on is below `x` keeps the key list non-decreasing. -/
theorem pairwise_insert_at (keys : List (List Char)) (x : List Char) (i : Nat)
    (hs : List.Pairwise (fun a b => strLeB a b = true) keys)
    (hlt : ∀ j, j < i → strLtB (keys.getD j []) x = true)
    (hge : ∀ j, i ≤ j → j < keys.length → strLtB (keys.getD j []) x = false) :
    List.Pairwise (fun a b => strLeB a b = true)
      (keys.take i ++ x :: keys.drop i) := by
  rw [List.pairwise_append]
  refine ⟨List.Pairwise.sublist (List.take_sublist _ _) hs, ?_, ?_⟩
  · rw [List.pairwise_cons]
    refine ⟨?_, List.Pairwise.sublist (List.drop_sublist _ _) hs⟩
    intro b hb
    obtain ⟨j, hj, hjb⟩ := List.mem_iff_getElem.mp hb
    have hjlen : i + j < keys.length := by
      rw [List.length_drop] at hj
      omega
    rw [List.getElem_drop] at hjb
    subst hjb
    have h2 := hge (i + j) (by omega) hjlen
    rw [List.getD_eq_getElem _ _ hjlen] at h2
    exact strLeB_iff_not_lt.mpr h2
  · intro a ha b hb
    obtain ⟨j, hj, hja⟩ := List.mem_iff_getElem.mp ha
    have hjlen : j < keys.length := by
      rw [List.length_take] at hj
      omega
    have hji : j < i := by
      rw [List.length_take] at hj
      omega
    rw [List.getElem_take] at hja
    subst hja
    have hax : strLtB keys[j] x = true := by
      have h2 := hlt j hji
      rwa [List.getD_eq_getElem _ _ hjlen] at h2
    rcases List.mem_cons.mp hb with hbx | hbd
    · subst hbx
      exact strLeB_of_lt hax
    · obtain ⟨j2, hj2, hj2b⟩ := List.mem_iff_getElem.mp hbd
      have hj2len : i + j2 < keys.length := by
        rw [List.length_drop] at hj2
        omega
      rw [List.getElem_drop] at hj2b
      subst hj2b
      have hxb : strLeB x keys[i + j2] = true := by
        have h2 := hge (i + j2) (by omega) hj2len
        rw [List.getD_eq_getElem _ _ hj2len] at h2
        exact strLeB_iff_not_lt.mpr h2
      exact strLeB_trans (strLeB_of_lt hax) hxb

/-! ## The sort invariant (claims C2 and C3) -/

/-- `insert_entry` preserves the ordering invariant, for either value of
`replace`. -/
theorem insert_entry_sortedByKey (st : MyRef) (e : Entry) (rep : Bool)
    (hs : sortedByKey st) : sortedByKey (st.insert_entry e rep).1 := by
  obtain ⟨hle, hlt, hge⟩ := bisect_left_spec (st.entries.map st.key) (st.key e) hs
  simp only [MyRef.insert_entry]
  by_cases hfound : bisect_left (st.entries.map st.key) (st.key e)
        < (st.entries.map st.key).length
      ∧ (st.entries.map st.key).getD
          (bisect_left (st.entries.map st.key) (st.key e)) [] = st.key e
  · rw [if_pos hfound]
    by_cases hrep : rep = true
    · rw [if_pos hrep]
      show List.Pairwise _
        ((st.entries.set (bisect_left (st.entries.map st.key) (st.key e)) e).map
          (MyRef.key _))
      rw [key_update, List.map_set]
      nth_rewrite 2 [← hfound.2]
      rw [set_getD_self _ _ _ hfound.1]
      exact hs
    · rw [if_neg hrep]
      show List.Pairwise _ (st.entries.map (MyRef.key _))
      rw [key_update]
      exact hs
  · rw [if_neg hfound]
    show List.Pairwise _
      ((pyInsert st.entries (bisect_left (st.entries.map st.key) (st.key e)) e).map
        (MyRef.key _))
    rw [key_update]
    unfold pyInsert
    rw [List.map_append, List.map_cons, List.map_take, List.map_drop]
    exact pairwise_insert_at _ _ _ hs hlt hge

/-- `sort()` establishes the ordering invariant (`sorted` is a stable sort
by the normalized key). -/
theorem sort_sortedByKey (st : MyRef) : sortedByKey st.sort := by
  show List.Pairwise _
    ((st.entries.mergeSort (fun a b => strLeB (st.key a) (st.key b))).map
      (MyRef.key _))
  rw [key_update, List.pairwise_map]
  exact @List.sorted_mergeSort Entry (fun a b => strLeB (st.key a) (st.key b))
    (fun a b c hab hbc => strLeB_trans hab hbc)
    (fun a b => strLeB_total _ _)
    st.entries

/-- A sequence of `insert_entry` calls, each with its own entry and
`replace` flag, applied in order. -/
def applyInserts (st : MyRef) (ops : List (Entry × Bool)) : MyRef :=
  ops.foldl (fun s op => (s.insert_entry op.1 op.2).1) st

/-- Claim C2: for every initial bibliography and every sequence of
`insert_entry` calls (any mix of `replace` flags), the sequence of
normalized keys of `db.entries` is non-decreasing after construction
(which sorts) and after every insert — taking any prefix of the operation
list gives the state after each call, with `n = 0` the state right after
construction. -/
theorem myref_sorted_invariant (st0 : MyRef) (ops : List (Entry × Bool))
    (n : Nat) : sortedByKey (applyInserts st0.sort (ops.take n)) := by
  have hpres : ∀ (l : List (Entry × Bool)) (st : MyRef), sortedByKey st →
      sortedByKey (applyInserts st l) := by
    intro l
    induction l with
    | nil => intro st h; exact h
    | cons op l ih =>
      intro st h
      show sortedByKey (applyInserts ((st.insert_entry op.1 op.2).1) l)
      exact ih _ (insert_entry_sortedByKey st op.1 op.2 h)
  exact hpres _ _ (sort_sortedByKey st0)

/-- When the normalized key of `e` is already present in a sorted
collection, `insert_entry(e, replace=False)` returns the collection
unchanged together with the record already stored under that key. -/
theorem insert_entry_found_false (st : MyRef) (e : Entry) (hs : sortedByKey st)
    (hmem : st.key e ∈ st.entries.map st.key) :
    (st.insert_entry e false).1 = st
    ∧ (st.insert_entry e false).2 ∈ st.entries
    ∧ st.key (st.insert_entry e false).2 = st.key e := by
  obtain ⟨hlen, hkey⟩ := bisect_left_found hs hmem
  have hlen' : bisect_left (st.entries.map st.key) (st.key e)
      < st.entries.length := by simpa using hlen
  simp only [MyRef.insert_entry]
  rw [if_pos ⟨hlen, hkey⟩]
  refine ⟨rfl, ?_, ?_⟩
  · show st.entries.getD _ [] ∈ st.entries
    rw [List.getD_eq_getElem _ _ hlen']
    exact List.getElem_mem _
  · show st.key (st.entries.getD _ []) = st.key e
    have h2 := hkey
    rw [List.getD_eq_getElem _ _ hlen, List.getElem_map] at h2
    rw [List.getD_eq_getElem _ _ hlen']
    exact h2

/-- After `insert_entry(e, replace=False)` the key of `e` occurs in the
collection — whether it was found or freshly inserted. -/
theorem insert_entry_mem_after (st : MyRef) (e : Entry) :
    st.key e ∈ ((st.insert_entry e false).1.entries.map st.key) := by
  simp only [MyRef.insert_entry]
  by_cases hfound : bisect_left (st.entries.map st.key) (st.key e)
        < (st.entries.map st.key).length
      ∧ (st.entries.map st.key).getD
          (bisect_left (st.entries.map st.key) (st.key e)) [] = st.key e
  · rw [if_pos hfound]
    show st.key e ∈ st.entries.map st.key
    rw [← hfound.2, List.getD_eq_getElem _ _ hfound.1]
    exact List.getElem_mem _
  · rw [if_neg hfound]
    show st.key e ∈ ((pyInsert st.entries _ e).map st.key)
    apply List.mem_map_of_mem
    unfold pyInsert
    exact List.mem_append.mpr (Or.inr (List.mem_cons_self _ _))

/-- Claim C3: in a sorted collection already holding the normalized key of
`e`, `insert_entry(e, replace=False)` leaves the collection unchanged and
returns the record already stored under that key (a member of the old
collection, not a fresh insertion); `insert_entry(e, replace=True)`
overwrites that record in place (`entries.set` at its slot) and returns
`e`; and a second `insert_entry(e, replace=False)` right after a first one
leaves the collection unchanged. -/
theorem insert_entry_dedup (st : MyRef) (e : Entry)
    (hs : sortedByKey st) (hmem : st.key e ∈ st.entries.map st.key) :
    ((st.insert_entry e false).1 = st
      ∧ (st.insert_entry e false).2 ∈ st.entries
      ∧ st.key (st.insert_entry e false).2 = st.key e)
    ∧ (∃ i, i < st.entries.length
        ∧ st.key (st.entries.getD i []) = st.key e
        ∧ (st.insert_entry e true).1.entries = st.entries.set i e
        ∧ (st.insert_entry e true).2 = e)
    ∧ ((st.insert_entry e false).1.insert_entry e false).1
        = (st.insert_entry e false).1 := by
  obtain ⟨hlen, hkey⟩ := bisect_left_found hs hmem
  have hlen' : bisect_left (st.entries.map st.key) (st.key e)
      < st.entries.length := by simpa using hlen
  refine ⟨insert_entry_found_false st e hs hmem, ?_, ?_⟩
  · refine ⟨bisect_left (st.entries.map st.key) (st.key e), hlen', ?_, ?_, ?_⟩
    · have h2 := hkey
      rw [List.getD_eq_getElem _ _ hlen, List.getElem_map] at h2
      rw [List.getD_eq_getElem _ _ hlen']
      exact h2
    · simp only [MyRef.insert_entry]
      rw [if_pos ⟨hlen, hkey⟩]
      rfl
    · simp only [MyRef.insert_entry]
      rw [if_pos ⟨hlen, hkey⟩]
      show (st.entries.set _ e).getD _ [] = e
      rw [List.getD_eq_getElem _ _ (by simpa using hlen')]
      exact List.getElem_set_self _
  · have h1 := (insert_entry_found_false st e hs hmem).1
    rw [h1]
    exact (insert_entry_found_false st e hs hmem).1

/-- A concrete sorted two-entry collection used to witness C3. -/
def stW : MyRef := MyRef.mk [[("ID", "a")], [("ID", "b")]] "ID" ""

/-- A concrete record whose identifier `B` normalizes to the key `b`
already present in `stW`. -/
def eW : Entry := [("ID", "B")]

/-- Witness for C3: the dedup behaviour at the concrete collection `stW`
and record `eW`. -/
theorem insert_entry_dedup_witness :
    sortedByKey stW
    ∧ stW.key eW ∈ stW.entries.map stW.key
    ∧ (((stW.insert_entry eW false).1 = stW
        ∧ (stW.insert_entry eW false).2 ∈ stW.entries
        ∧ stW.key (stW.insert_entry eW false).2 = stW.key eW)
      ∧ (∃ i, i < stW.entries.length
          ∧ stW.key (stW.entries.getD i []) = stW.key eW
          ∧ (stW.insert_entry eW true).1.entries = stW.entries.set i eW
          ∧ (stW.insert_entry eW true).2 = eW)
      ∧ ((stW.insert_entry eW false).1.insert_entry eW false).1
          = (stW.insert_entry eW false).1) :=
  ⟨by decide, by decide, insert_entry_dedup stW eW (by decide) (by decide)⟩
